import Mathlib

/-!
Shallow embedding of the word-recognition and transformation engine of
`src/extension.ts` (class `UnicodeMaths`).  JavaScript strings are modelled
as lists of characters; the JavaScript object used as the symbol table is
modelled as an association list with lookup returning `Option`.
-/

namespace UnicodeMaths

/-- A JavaScript string, modelled as its list of characters. -/
abbrev Str := List Char

/-- JavaScript object property access `codes[k]`: `none` models `undefined`. -/
def lookup (codes : List (Str × Str)) (k : Str) : Option Str :=
  match codes with
  | [] => none
  | (k0, v0) :: rest => if k0 = k then some v0 else lookup rest k

/-- Property access for the single-character tables `subs` and `sups`. -/
def clookup (m : List (Char × Str)) (c : Char) : Option Str :=
  match m with
  | [] => none
  | (k0, v0) :: rest => if k0 = c then some v0 else clookup rest c

/-- JavaScript truthiness coercion `v || c` used per character in the mappers:
an absent entry, and also an empty-string entry (falsy), yields the character
itself. -/
def orChar (v : Option Str) (c : Char) : Str :=
  match v with
  | some s => if s = [] then [c] else s
  | none => [c]

/-- JavaScript truthiness coercion `this.codes[word] || null` of the direct
lookup: an absent entry and an empty-string entry both become `null`. -/
def orNull (v : Option Str) : Option Str :=
  match v with
  | some s => if s = [] then none else some s
  | none => none

/-- JavaScript `word.charAt(i)`, as an optional character (out of range gives
the empty string in JavaScript, modelled as `none`; the comparisons in
`doWord` against one-character strings agree with comparing against `some`). -/
def charAt (w : Str) (i : Nat) : Option Char :=
  match w, i with
  | [], _ => none
  | c :: _, 0 => some c
  | _ :: t, n + 1 => charAt t n

/-- The `sups` table of `src/extension.ts`, entries in source order. -/
def sups : List (Char × Str) :=
  [('L', ['ᴸ']), ('I', ['ᴵ']), ('y', ['ʸ']), ('9', ['⁹']), ('0', ['⁰']),
   ('δ', ['ᵟ']), ('w', ['ʷ']), ('4', ['⁴']), ('l', ['ˡ']),
   ('Z', ['ᶻ']), ('P', ['ᴾ']), ('b', ['ᵇ']), ('7', ['⁷']), (')', ['⁾']),
   ('h', ['ʰ']), ('6', ['⁶']), ('W', ['ᵂ']), ('=', ['⁼']), ('χ', ['ᵡ']),
   ('m', ['ᵐ']), ('-', ['⁻']),
   ('r', ['ʳ']), ('p', ['ᵖ']), ('c', ['ᶜ']), ('v', ['ᵛ']), ('d', ['ᵈ']),
   ('ϕ', ['ᵠ']), ('θ', ['ᶿ']), ('1', ['¹']), ('T', ['ᵀ']), ('o', ['ᴼ']),
   ('K', ['ᴷ']), ('e', ['ᵉ']),
   ('G', ['ᴳ']), ('t', ['ᵗ']), ('8', ['⁸']), ('β', ['ᵝ']), ('V', ['ⱽ']),
   ('M', ['ᴹ']), ('s', ['ˢ']), ('i', ['ⁱ']), ('k', ['ᵏ']), ('α', ['ᵅ']),
   ('A', ['ᴬ']), ('5', ['⁵']),
   ('2', ['²']), ('u', ['ᶸ']), ('H', ['ᴴ']), ('g', ['ᵍ']), ('(', ['⁽']),
   ('j', ['ʲ']), ('f', ['ᶠ']), ('D', ['ᴰ']), ('γ', ['ᵞ']), ('U', ['ᵁ']),
   ('E', ['ᴱ']), ('a', ['ᵃ']),
   ('N', ['ᴺ']), ('n', ['ⁿ']), ('B', ['ᴮ']), ('x', ['ˣ']), ('3', ['³']),
   ('R', ['ᴿ']), ('+', ['⁺']), ('J', ['ᴶ'])]

/-- The `subs` table of `src/extension.ts`, entries in source order. -/
def subs : List (Char × Str) :=
  [('1', ['₁']), (')', ['₎']), ('m', ['ₘ']), ('4', ['₄']), ('j', ['ⱼ']),
   ('7', ['₇']), ('β', ['ᵦ']), ('8', ['₈']),
   ('2', ['₂']), ('3', ['₃']), ('s', ['ₛ']), ('u', ['ᵤ']), ('χ', ['ᵪ']),
   ('5', ['₅']), ('t', ['ₜ']), ('h', ['ₕ']), ('-', ['₋']), ('ρ', ['ᵨ']),
   ('+', ['₊']),
   ('o', ['ₒ']), ('v', ['ᵥ']), ('r', ['ᵣ']), ('6', ['₆']), ('(', ['₍']),
   ('k', ['ₖ']), ('x', ['ₓ']), ('9', ['₉']), ('=', ['₌']), ('e', ['ₑ']),
   ('l', ['ₗ']),
   ('i', ['ᵢ']), ('ϕ', ['ᵩ']), ('a', ['ₐ']), ('p', ['ₚ']), ('n', ['ₙ']),
   ('0', ['₀'])]

/-- Function `mapToSubSup` of `src/extension.ts`: map `word.slice(2)` character by
character through the given mapper, `null` when unchanged. -/
def mapToSubSup (word : Str) (mapper : List (Char × Str)) : Option Str :=
  let target := word.drop 2
  let newStr := (target.map (fun c => orChar (clookup mapper c) c)).flatten
  if newStr = target then none else some newStr

/-- Function `mapToBoldIt` of `src/extension.ts`: map `word.slice(3)` character by
character through `codes` with the `\mbf` (bold) or `\mit` (italic) key
prefix, `null` when unchanged. -/
def mapToBoldIt (codes : List (Str × Str)) (word : Str) (bold : Bool) :
    Option Str :=
  let target := word.drop 3
  let codePre : Str := if bold then ['\\', 'm', 'b', 'f'] else ['\\', 'm', 'i', 't']
  let newStr := (target.map (fun c => orChar (lookup codes (codePre ++ [c])) c)).flatten
  if newStr = target then none else some newStr

/-- JavaScript `word.split(':')`. -/
def splitOnColon : Str → List Str
  | [] => [[]]
  | c :: rest =>
    if c = ':' then [] :: splitOnColon rest
    else
      match splitOnColon rest with
      | [] => [[c]]
      | p :: ps => (c :: p) :: ps

/-- Function `mapTo` of `src/extension.ts`: split the word on `:`; when that gives
exactly two parts, map the payload character by character through `codes`
keyed by the modifier part, `null` when unchanged or when the split has any
other number of parts. -/
def mapTo (codes : List (Str × Str)) (word : Str) : Option Str :=
  match splitOnColon word with
  | [m, newStr] =>
    let modStr := (newStr.map (fun c => orChar (lookup codes (m ++ [c])) c)).flatten
    if modStr = newStr then none else some modStr
  | _ => none

/-- Function `doWord` of `src/extension.ts`: classify the word and expand it,
`null` when there is nothing to convert. -/
def doWord (codes : List (Str × Str)) (word : Str) : Option Str :=
  if charAt word 1 = some '_' then mapToSubSup word subs
  else if charAt word 1 = some '^' then mapToSubSup word sups
  else if List.isPrefixOf ['\\', 'i', ':'] word then some ['f', 'o', 'o']
  else if List.isPrefixOf ['\\', 'b', ':'] word then mapToBoldIt codes word true
  else if ¬ List.isPrefixOf ['\\', ':'] word ∧ List.isPrefixOf ['\\'] word ∧ ':' ∈ word then
    mapTo codes word
  else orNull (lookup codes word)

/-- The whitespace test used by JavaScript `trim`, restricted to the
characters that `Char.isWhitespace` of Lean recognises. -/
def isWs (c : Char) : Bool := c.isWhitespace

/-- Leading-whitespace removal. -/
def trimL (l : Str) : Str := l.dropWhile isWs

/-- Trailing-whitespace removal. -/
def trimR (l : Str) : Str := (l.reverse.dropWhile isWs).reverse

/-- JavaScript `String.prototype.trim`. -/
def trim (l : Str) : Str := trimR (trimL l)

/-- JavaScript `String.prototype.lastIndexOf` for a single character:
the index of its last occurrence, `-1` when absent. -/
def lastIndexOf (l : Str) (c : Char) : Int :=
  match l with
  | [] => -1
  | x :: xs =>
    let r := lastIndexOf xs c
    if 0 ≤ r then r + 1 else if x = c then 0 else -1

/-- JavaScript `String.prototype.slice` with one argument: a negative start
counts from the end, clamped at 0. -/
def jsSliceFrom (l : Str) (i : Int) : Str :=
  l.drop (if i < 0 then ((l.length : Int) + i).toNat else i.toNat)

/-- Function `getWordRangeAtPosition` of `src/extension.ts` on the line text before
the cursor: the span is `(slash, slash + word.length)` on the cursor line,
with `word` the trimmed slice from the last backslash. -/
def getWordRangeAtPosition (line : Str) : (Int × Int) × Str :=
  ((lastIndexOf line '\\',
    lastIndexOf line '\\' +
      (trim (jsSliceFrom line (lastIndexOf line '\\'))).length),
   trim (jsSliceFrom line (lastIndexOf line '\\')))

/-- Function `evalPosition` of `src/extension.ts`: absent at column 0 and whenever the
located word is empty or does not start with a backslash. -/
def evalPosition (line : Str) (col : Nat) : Option ((Int × Int) × Str) :=
  if col = 0 then none
  else if (getWordRangeAtPosition line).2 = [] ∨
      ¬ List.isPrefixOf ['\\'] (getWordRangeAtPosition line).2 then none
  else some (getWordRangeAtPosition line)

/-- The completion matching of `provideCompletionItems` in
`src/extension.ts`: the table keys having the word as a prefix, each paired
with its expansion (the detail and insert text of the item). -/
def suggest (codes : List (Str × Str)) (word : Str) : List (Str × Str) :=
  ((codes.map Prod.fst).filter (fun k => List.isPrefixOf word k)).map
    (fun k => (k, (lookup codes k).getD []))

/-- Function `provideCompletionItems` of `src/extension.ts`: empty when no token is
located at the cursor, otherwise the suggestions for the located word. -/
def provideCompletionItems (codes : List (Str × Str)) (line : Str) (col : Nat) :
    List (Str × Str) :=
  match evalPosition line col with
  | none => []
  | some (_, word) => suggest codes word

/-- Modelled from the spec: the primary symbol table (`Symbols.default`,
imported from `./symbols`, which is not part of the sources under
verification).  Entries follow the examples of the spec: the direct math-symbol
code `\alpha` → "α", and per-character bold (`\mbf…`) and italic (`\mit…`)
entries. -/
def sampleCodes : List (Str × Str) :=
  [(['\\', 'a', 'l', 'p', 'h', 'a'], ['α']),
   (['\\', 'b', 'e', 't', 'a'], ['β']),
   (['\\', 'm', 'b', 'f', 'a'], ['𝐚']),
   (['\\', 'm', 'b', 'f', 'b'], ['𝐛']),
   (['\\', 'm', 'i', 't', 'a'], ['𝑎'])]

/-- The per-character image of the spec through a single-character table: the
table entry when one exists, the character itself otherwise. -/
def tableImage (m : List (Char × Str)) (c : Char) : Str := (clookup m c).getD [c]

/-- The per-character image of the spec as a character (the tables map single
characters to single characters). -/
def charImage (m : List (Char × Str)) (c : Char) : Char := (tableImage m c).headD c

/-- The per-character image of the spec through the primary table under a key
prefix: the entry at `pre ++ [c]` when one exists, the character itself
otherwise. -/
def keyImage (codes : List (Str × Str)) (pre : Str) (c : Char) : Str :=
  (lookup codes (pre ++ [c])).getD [c]

/-- The character-by-character replacement of the spec for a payload through the
primary table under a key prefix. -/
def specKeyMap (codes : List (Str × Str)) (pre : Str) (s : Str) : Str :=
  (s.map (keyImage codes pre)).flatten

lemma clookup_mem {m : List (Char × Str)} {c : Char} {v : Str}
    (h : clookup m c = some v) : (c, v) ∈ m := by
  induction m with
  | nil => simp [clookup] at h
  | cons p rest ih =>
    obtain ⟨k0, v0⟩ := p
    by_cases hk : k0 = c
    · subst hk
      simp [clookup] at h
      simp [h]
    · simp [clookup, hk] at h
      exact List.mem_cons_of_mem _ (ih h)

lemma lookup_mem {t : List (Str × Str)} {k : Str} {v : Str}
    (h : lookup t k = some v) : (k, v) ∈ t := by
  induction t with
  | nil => simp [lookup] at h
  | cons p rest ih =>
    obtain ⟨k0, v0⟩ := p
    by_cases hk : k0 = k
    · subst hk
      simp [lookup] at h
      simp [h]
    · simp [lookup, hk] at h
      exact List.mem_cons_of_mem _ (ih h)

lemma subs_entries_single : ∀ p ∈ subs, p.2.length = 1 := by decide

lemma sups_entries_single : ∀ p ∈ sups, p.2.length = 1 := by decide

lemma orChar_clookup_single {m : List (Char × Str)}
    (hm : ∀ p ∈ m, p.2.length = 1) (c : Char) :
    orChar (clookup m c) c = [charImage m c] := by
  cases h : clookup m c with
  | none => simp [orChar, charImage, tableImage, h]
  | some v =>
    obtain ⟨d, hd⟩ := List.length_eq_one.mp (hm _ (clookup_mem h))
    subst hd
    simp [orChar, charImage, tableImage, h]

lemma flatten_map_single {f : Char → Str} {g : Char → Char}
    (h : ∀ c, f c = [g c]) (s : Str) : (s.map f).flatten = s.map g := by
  induction s with
  | nil => rfl
  | cons c t ih => simp [h c, ih]

lemma mapToSubSup_eq_map {m : List (Char × Str)}
    (hm : ∀ p ∈ m, p.2.length = 1) (w : Str) :
    mapToSubSup w m =
      (if (w.drop 2).map (charImage m) = w.drop 2 then none
       else some ((w.drop 2).map (charImage m))) := by
  simp only [mapToSubSup]
  rw [flatten_map_single (orChar_clookup_single hm) (w.drop 2)]

/-- C9: `expand` on the token `\_2` returns the string `₂` (the character
`2` has a Subscript-table entry), and on `\_Q` returns absent (`Q` has no
Subscript-table entry, so the suffix is unchanged), for any primary table. -/
theorem expand_sub_examples :
    ∀ codes : List (Str × Str),
      doWord codes ['\\', '_', '2'] = some ['₂'] ∧
      doWord codes ['\\', '_', 'Q'] = none :=
  fun _ => ⟨rfl, rfl⟩

/-- C10: `expand` on any token starting with `\i:` returns the constant
string `foo`, whatever the payload and whatever the primary table: the
italic path never returns absent and never consults a table. -/
theorem expand_italic_stub :
    ∀ (codes : List (Str × Str)) (s : Str),
      doWord codes ('\\' :: 'i' :: ':' :: s) = some ['f', 'o', 'o'] := by
  intro codes s
  simp [doWord, charAt, List.isPrefixOf]

/-- C1: `expand` on `\_` + s maps each character of `s` to its
Subscript-table image when an entry exists and to itself otherwise (so the
result has length `len s` with characters in corresponding positions), and
returns absent exactly when that mapped string equals `s`; symmetrically for
`\^` + s with the Superscript table. -/
theorem expand_subsup_spec :
    ∀ (codes : List (Str × Str)) (s : Str),
      doWord codes ('\\' :: '_' :: s) =
        (if s.map (charImage subs) = s then none
         else some (s.map (charImage subs))) ∧
      doWord codes ('\\' :: '^' :: s) =
        (if s.map (charImage sups) = s then none
         else some (s.map (charImage sups))) := by
  intro codes s
  constructor
  · have h1 : charAt ('\\' :: '_' :: s) 1 = some '_' := rfl
    rw [doWord, if_pos h1, mapToSubSup_eq_map subs_entries_single]
    rfl
  · have h1 : charAt ('\\' :: '^' :: s) 1 = some '_' ↔ False := by
      simp [charAt]
    have h2 : charAt ('\\' :: '^' :: s) 1 = some '^' := rfl
    rw [doWord, if_neg (by simp [charAt]), if_pos h2,
      mapToSubSup_eq_map sups_entries_single]
    rfl

lemma orChar_lookup_nonempty {codes : List (Str × Str)}
    (hv : ∀ kv ∈ codes, kv.2 ≠ []) (k : Str) (c : Char) :
    orChar (lookup codes k) c = (lookup codes k).getD [c] := by
  cases h : lookup codes k with
  | none => rfl
  | some v => simp [orChar, hv _ (lookup_mem h)]

lemma keyed_map_eq {codes : List (Str × Str)}
    (hv : ∀ kv ∈ codes, kv.2 ≠ []) (pre : Str) (s : Str) :
    s.map (fun c => orChar (lookup codes (pre ++ [c])) c) =
      s.map (keyImage codes pre) := by
  refine List.map_congr_left fun c _ => ?_
  rw [orChar_lookup_nonempty hv]
  rfl

/-- C3: `expand` on `\b:` + s replaces each character `c` of `s` by the
primary-table entry for `\mbf` + c when one exists and by `c` itself
otherwise, and returns absent exactly when the result equals `s`.  Stated
for any primary table whose expansions are nonempty strings. -/
theorem expand_bold_spec :
    ∀ (codes : List (Str × Str)) (s : Str),
      (∀ kv ∈ codes, kv.2 ≠ []) →
      doWord codes ('\\' :: 'b' :: ':' :: s) =
        (if specKeyMap codes ['\\', 'm', 'b', 'f'] s = s then none
         else some (specKeyMap codes ['\\', 'm', 'b', 'f'] s)) := by
  intro codes s hv
  have hb : doWord codes ('\\' :: 'b' :: ':' :: s) =
      mapToBoldIt codes ('\\' :: 'b' :: ':' :: s) true := by
    simp [doWord, charAt, List.isPrefixOf]
  rw [hb]
  simp only [mapToBoldIt, if_pos rfl, List.drop_succ_cons, List.drop_zero]
  rw [keyed_map_eq hv]
  rfl

/-- Witness for C3 at the spec-modelled table: `\b:a` expands to `𝐚`. -/
theorem expand_bold_spec_witness :
    doWord sampleCodes ['\\', 'b', ':', 'a'] = some ['𝐚'] :=
  (expand_bold_spec sampleCodes ['a'] (by decide)).trans (by decide)

lemma splitOnColon_no_colon {p : Str} (hp : ':' ∉ p) : splitOnColon p = [p] := by
  induction p with
  | nil => rfl
  | cons c t ih =>
    have hc : ¬ c = ':' := fun h => hp (h ▸ List.mem_cons_self c t)
    have ht : ':' ∉ t := fun h => hp (List.mem_cons_of_mem c h)
    simp [splitOnColon, hc, ih ht]

lemma splitOnColon_append {m p : Str} (hm : ':' ∉ m) (hp : ':' ∉ p) :
    splitOnColon (m ++ ':' :: p) = [m, p] := by
  induction m with
  | nil => simp [splitOnColon, splitOnColon_no_colon hp]
  | cons c t ih =>
    have hc : ¬ c = ':' := fun h => hm (h ▸ List.mem_cons_self c t)
    have ht : ':' ∉ t := fun h => hm (List.mem_cons_of_mem c h)
    simp [splitOnColon, hc, ih ht]

lemma splitOnColon_length (w : Str) :
    (splitOnColon w).length = w.count ':' + 1 := by
  induction w with
  | nil => rfl
  | cons c t ih =>
    by_cases hc : c = ':'
    · subst hc
      simp [splitOnColon, List.count_cons, ih]
    · cases hsp : splitOnColon t with
      | nil => rw [hsp] at ih; simp at ih
      | cons q qs =>
        rw [hsp] at ih
        simp [splitOnColon, hc, hsp, List.count_cons, Ne.symm hc] at ih ⊢
        omega

/-- C2: for tokens starting with a backslash but not `\:`, whose second
character is neither `_` nor `^`, not starting with `\i:` or `\b:`, and
containing a colon: with exactly one colon `expand` splits there into a
modifier and a payload and maps each payload character through the primary
table keyed by modifier + character (the character itself when no entry
exists, absent when unchanged; stated for tables with nonempty expansions);
with more than one colon `expand` returns absent. -/
theorem expand_generic_spec :
    ∀ codes : List (Str × Str),
      (∀ m p : Str, (∀ kv ∈ codes, kv.2 ≠ []) → ':' ∉ m → ':' ∉ p →
        List.isPrefixOf ['\\'] (m ++ ':' :: p) →
        ¬ List.isPrefixOf ['\\', ':'] (m ++ ':' :: p) →
        charAt (m ++ ':' :: p) 1 ≠ some '_' →
        charAt (m ++ ':' :: p) 1 ≠ some '^' →
        ¬ List.isPrefixOf ['\\', 'i', ':'] (m ++ ':' :: p) →
        ¬ List.isPrefixOf ['\\', 'b', ':'] (m ++ ':' :: p) →
        doWord codes (m ++ ':' :: p) =
          (if specKeyMap codes m p = p then none
           else some (specKeyMap codes m p))) ∧
      (∀ w : Str, 1 < w.count ':' →
        charAt w 1 ≠ some '_' → charAt w 1 ≠ some '^' →
        ¬ List.isPrefixOf ['\\', 'i', ':'] w →
        ¬ List.isPrefixOf ['\\', 'b', ':'] w →
        ¬ List.isPrefixOf ['\\', ':'] w → List.isPrefixOf ['\\'] w →
        doWord codes w = none) := by
  intro codes
  constructor
  · intro m p hv hm hp h1 h2 h3 h4 h5 h6
    have hmem : ':' ∈ m ++ ':' :: p := by simp
    rw [doWord, if_neg h3, if_neg h4, if_neg h5, if_neg h6,
      if_pos ⟨h2, h1, hmem⟩]
    unfold mapTo
    rw [splitOnColon_append hm hp]
    simp only []
    rw [keyed_map_eq hv]
    rfl
  · intro w hc h3 h4 h5 h6 h2 h1
    have hmem : ':' ∈ w := List.count_pos_iff.mp (by omega)
    rw [doWord, if_neg h3, if_neg h4, if_neg h5, if_neg h6,
      if_pos ⟨h2, h1, hmem⟩]
    have hlen := splitOnColon_length w
    unfold mapTo
    cases hsp : splitOnColon w with
    | nil => rfl
    | cons a t =>
      cases t with
      | nil => rfl
      | cons b t2 =>
        cases t2 with
        | nil =>
          rw [hsp] at hlen
          simp at hlen
          omega
        | cons d t3 => rfl

/-- Witness for C2 at the spec-modelled table: `\mbf:a` expands to `𝐚`
through the one-colon rule, and the two-colon token `\a:b:c` is absent. -/
theorem expand_generic_spec_witness :
    doWord sampleCodes ['\\', 'm', 'b', 'f', ':', 'a'] = some ['𝐚'] ∧
    doWord sampleCodes ['\\', 'a', ':', 'b', ':', 'c'] = none := by
  constructor
  · exact ((expand_generic_spec sampleCodes).1 ['\\', 'm', 'b', 'f'] ['a']
      (by decide) (by decide) (by decide) (by decide) (by decide) (by decide)
      (by decide) (by decide) (by decide)).trans (by decide)
  · exact (expand_generic_spec sampleCodes).2 ['\\', 'a', ':', 'b', ':', 'c']
      (by decide) (by decide) (by decide) (by decide) (by decide) (by decide)
      (by decide)

/-- Counterexample for C8: with a primary table mapping `\x` to the empty
string, `expand` of `\x` returns absent, not the empty string the claim
demands. -/
theorem expand_empty_entry_counterexample :
    lookup [(['\\', 'x'], ([] : Str))] ['\\', 'x'] = some [] ∧
    doWord [(['\\', 'x'], ([] : Str))] ['\\', 'x'] = none := by decide

/-- C8 amended: the direct lookup `this.codes[word] || null` collapses an
empty-string table entry to absent, so for every direct-lookup token whose
primary-table entry is the empty string, `expand` returns absent rather
than the empty string. -/
theorem expand_empty_entry_absent (codes : List (Str × Str)) (w : Str)
    (h3 : charAt w 1 ≠ some '_') (h4 : charAt w 1 ≠ some '^')
    (h5 : ¬ List.isPrefixOf ['\\', 'i', ':'] w)
    (h6 : ¬ List.isPrefixOf ['\\', 'b', ':'] w)
    (h7 : ¬ (¬ List.isPrefixOf ['\\', ':'] w ∧ List.isPrefixOf ['\\'] w ∧ ':' ∈ w))
    (hl : lookup codes w = some []) :
    doWord codes w = none := by
  rw [doWord, if_neg h3, if_neg h4, if_neg h5, if_neg h6, if_neg h7, hl]
  rfl

/-- Witness for the amended C8 at the table mapping `\x` to the empty
string. -/
theorem expand_empty_entry_absent_witness :
    doWord [(['\\', 'x'], ([] : Str))] ['\\', 'x'] = none :=
  expand_empty_entry_absent [(['\\', 'x'], ([] : Str))] ['\\', 'x']
    (by decide) (by decide) (by decide) (by decide) (by decide) (by decide)

lemma map_lookup_filter (codes : List (Str × Str)) (f : Str → Bool)
    (hnd : (codes.map Prod.fst).Nodup) :
    ((codes.map Prod.fst).filter f).map
        (fun k => (k, (lookup codes k).getD [])) =
      codes.filter (fun kv => f kv.1) := by
  induction codes with
  | nil => rfl
  | cons kv rest ih =>
    obtain ⟨k, v⟩ := kv
    rw [List.map_cons] at hnd
    have hk : k ∉ rest.map Prod.fst := (List.nodup_cons.mp hnd).1
    have hrest := (List.nodup_cons.mp hnd).2
    have htail : ∀ x ∈ (rest.map Prod.fst).filter f,
        (x, (lookup ((k, v) :: rest) x).getD []) =
          (x, (lookup rest x).getD []) := by
      intro x hx
      have hxr : x ∈ rest.map Prod.fst := List.mem_of_mem_filter hx
      have hne : ¬ k = x := fun h => hk (h ▸ hxr)
      simp [lookup, hne]
    rw [List.map_cons, List.filter_cons, List.filter_cons]
    by_cases hfk : f k
    · simp only [hfk, if_pos]
      rw [List.map_cons, List.map_congr_left htail, ih hrest]
      simp [lookup]
    · simp only [hfk]
      rw [if_neg (by simp), if_neg (by simp [hfk])]
      rw [List.map_congr_left htail, ih hrest]

/-- C6: `suggest` returns exactly the primary-table keys having the partial
token as a literal prefix, each paired with the expansion of that key, in table
order; when no key matches the result is the empty list.  Stated for any
table with distinct keys, as the keys of a JavaScript object are. -/
theorem suggest_filters_keys :
    ∀ (codes : List (Str × Str)) (p : Str),
      (codes.map Prod.fst).Nodup →
      suggest codes p = codes.filter (fun kv => List.isPrefixOf p kv.1) := by
  intro codes p hnd
  unfold suggest
  exact map_lookup_filter codes (fun k => List.isPrefixOf p k) hnd

/-- Witness for C6 at the spec-modelled table: `suggest "\al"` returns
exactly the one key `\alpha`, paired with its expansion `α`. -/
theorem suggest_filters_keys_witness :
    suggest sampleCodes ['\\', 'a', 'l'] =
      [(['\\', 'a', 'l', 'p', 'h', 'a'], ['α'])] :=
  (suggest_filters_keys sampleCodes ['\\', 'a', 'l'] (by decide)).trans
    (by decide)

lemma lastIndexOf_cons (x : Char) (xs : Str) (c : Char) :
    lastIndexOf (x :: xs) c =
      (if 0 ≤ lastIndexOf xs c then lastIndexOf xs c + 1
       else if x = c then 0 else -1) := rfl

lemma lastIndexOf_ge (l : Str) (c : Char) : -1 ≤ lastIndexOf l c := by
  induction l with
  | nil => simp [lastIndexOf]
  | cons x xs ih =>
    rw [lastIndexOf_cons]
    split_ifs <;> omega

lemma lastIndexOf_lt (l : Str) (c : Char) :
    lastIndexOf l c < (l.length : Int) := by
  induction l with
  | nil => simp [lastIndexOf]
  | cons x xs ih =>
    rw [lastIndexOf_cons]
    simp only [List.length_cons]
    split_ifs <;> push_cast <;> omega

lemma lastIndexOf_eq_neg_iff (l : Str) (c : Char) :
    lastIndexOf l c = -1 ↔ c ∉ l := by
  induction l with
  | nil => simp [lastIndexOf]
  | cons x xs ih =>
    rw [lastIndexOf_cons]
    by_cases h0 : 0 ≤ lastIndexOf xs c
    · rw [if_pos h0]
      have hxs : c ∈ xs := by
        by_contra hc
        have := ih.mpr hc
        omega
      simp [hxs]
      omega
    · rw [if_neg h0]
      have hxs : c ∉ xs := ih.mp (by have := lastIndexOf_ge xs c; omega)
      by_cases hx : x = c
      · subst hx
        simp
      · rw [if_neg hx]
        have hnc : c ∉ x :: xs := fun hmem => by
          rcases List.mem_cons.mp hmem with h | h
          · exact hx h.symm
          · exact hxs h
        simp [hnc]

lemma lastIndexOf_mem_spec {l : Str} {c : Char} (h : c ∈ l) :
    ∃ n : Nat, lastIndexOf l c = n ∧ n < l.length ∧
      (l.drop n).head? = some c := by
  induction l with
  | nil => cases h
  | cons x xs ih =>
    by_cases hx : c ∈ xs
    · obtain ⟨n, h1, h2, h3⟩ := ih hx
      refine ⟨n + 1, ?_, by simp; omega, by simpa using h3⟩
      rw [lastIndexOf_cons, if_pos (by rw [h1]; positivity)]
      rw [h1]
      push_cast
      ring
    · have hxc : x = c := by
        rcases List.mem_cons.mp h with h | h
        · exact h.symm
        · exact absurd h hx
      have hr : lastIndexOf xs c = -1 := (lastIndexOf_eq_neg_iff xs c).mpr hx
      refine ⟨0, ?_, by simp, by simp [hxc]⟩
      rw [lastIndexOf_cons, hr, if_neg (by omega), if_pos hxc]
      rfl

lemma jsSliceFrom_sublist (l : Str) (i : Int) : (jsSliceFrom l i).Sublist l := by
  unfold jsSliceFrom
  exact List.drop_sublist _ l

lemma trim_sublist (l : Str) : (trim l).Sublist l := by
  have h1 : (trimL l).Sublist l := List.dropWhile_sublist isWs
  have h2 : ((trimL l).reverse.dropWhile isWs).Sublist (trimL l).reverse :=
    List.dropWhile_sublist isWs
  have h3 : (trimR (trimL l)).Sublist (trimL l) := by
    have := List.reverse_sublist.mpr h2
    unfold trimR
    calc ((trimL l).reverse.dropWhile isWs).reverse.Sublist
          (trimL l).reverse.reverse := by
          exact List.reverse_sublist.mpr h2
      _ = trimL l := List.reverse_reverse _
  exact h3.trans h1

lemma mem_of_isPre {w : Str} (h : List.isPrefixOf ['\\'] w) : '\\' ∈ w := by
  cases w with
  | nil => simp [List.isPrefixOf] at h
  | cons a t =>
    simp [List.isPrefixOf] at h
    simp [← h]

lemma evalPosition_no_slash {line : Str} (h : '\\' ∉ line) (col : Nat) :
    evalPosition line col = none := by
  unfold evalPosition
  by_cases hc : col = 0
  · rw [if_pos hc]
  · rw [if_neg hc, if_pos ?_]
    refine Or.inr ?_
    intro hpre
    have hmem : '\\' ∈ (getWordRangeAtPosition line).2 := mem_of_isPre hpre
    have hsub : ((getWordRangeAtPosition line).2).Sublist line := by
      unfold getWordRangeAtPosition
      exact (trim_sublist _).trans (jsSliceFrom_sublist _ _)
    exact h (hsub.subset hmem)

/-- C5: the Token Locator returns absent whenever the cursor column is 0 or
no backslash occurs in the line text before the cursor. -/
theorem locate_absent_no_slash :
    ∀ (line : Str) (col : Nat), col = 0 ∨ '\\' ∉ line →
      evalPosition line col = none := by
  intro line col h
  rcases h with h | h
  · simp [evalPosition, h]
  · exact evalPosition_no_slash h col

/-- Witness for C5: a backslash-free line locates nothing. -/
theorem locate_absent_no_slash_witness :
    evalPosition ['a', 'b'] 2 = none :=
  locate_absent_no_slash ['a', 'b'] 2 (Or.inr (by decide))

lemma evalPosition_some {line : Str} {col : Nat} {s e : Int} {w : Str}
    (h : evalPosition line col = some ((s, e), w)) :
    col ≠ 0 ∧ w = trim (jsSliceFrom line (lastIndexOf line '\\')) ∧
      s = lastIndexOf line '\\' ∧ e = s + w.length ∧
      w ≠ [] ∧ List.isPrefixOf ['\\'] w := by
  unfold evalPosition at h
  by_cases hc : col = 0
  · rw [if_pos hc] at h
    cases h
  · rw [if_neg hc] at h
    by_cases hg : (getWordRangeAtPosition line).2 = [] ∨
        ¬ List.isPrefixOf ['\\'] (getWordRangeAtPosition line).2
    · rw [if_pos hg] at h
      cases h
    · rw [if_neg hg] at h
      have hne : trim (jsSliceFrom line (lastIndexOf line '\\')) ≠ [] :=
        fun hnil => hg (Or.inl hnil)
      have hpre : List.isPrefixOf ['\\']
          (trim (jsSliceFrom line (lastIndexOf line '\\'))) := by
        by_contra hp
        exact hg (Or.inr hp)
      have hinj := Option.some.inj h
      have hWw : trim (jsSliceFrom line (lastIndexOf line '\\')) = w :=
        congrArg Prod.snd hinj
      have hSs : lastIndexOf line '\\' = s := congrArg (fun q => q.1.1) hinj
      have hEe : lastIndexOf line '\\' +
          ((trim (jsSliceFrom line (lastIndexOf line '\\'))).length : Int) = e :=
        congrArg (fun q => q.1.2) hinj
      exact ⟨hc, hWw.symm, hSs.symm, by rw [← hEe, hWw, hSs],
        hWw ▸ hne, hWw ▸ hpre⟩

/-- C7: every locate query resolves to either the absent sentinel or a
well-defined match (a nonempty word starting with a backslash, with a
well-formed span anchored at a non-negative start), and `expand` is total:
it resolves to absent or to a replacement string on every input. -/
theorem core_total_wellformed :
    ∀ (codes : List (Str × Str)) (line : Str) (col : Nat),
      (evalPosition line col = none ∨
        ∃ s e w, evalPosition line col = some ((s, e), w) ∧
          w.head? = some '\\' ∧ 0 ≤ s ∧ e = s + w.length) ∧
      (∀ w : Str, doWord codes w = none ∨ ∃ r, doWord codes w = some r) := by
  intro codes line col
  constructor
  · cases h : evalPosition line col with
    | none => exact Or.inl rfl
    | some rw0 =>
      obtain ⟨⟨s, e⟩, w⟩ := rw0
      obtain ⟨hc, hwdef, hs, he, hne, hpre⟩ := evalPosition_some h
      refine Or.inr ⟨s, e, w, rfl, ?_, ?_, he⟩
      · cases w with
        | nil => exact absurd rfl hne
        | cons a t =>
          simp [List.isPrefixOf] at hpre
          simp [← hpre]
      · by_contra hneg
        have hm1 : s = -1 := by
          have := lastIndexOf_ge line '\\'
          omega
        have hnot : '\\' ∉ line :=
          (lastIndexOf_eq_neg_iff line '\\').mp (hs ▸ hm1)
        rw [evalPosition_no_slash hnot col] at h
        cases h
  · intro w
    cases h : doWord codes w with
    | none => exact Or.inl rfl
    | some r => exact Or.inr ⟨r, rfl⟩

lemma length_trimR_le (l : Str) : (trimR l).length ≤ l.length := by
  unfold trimR
  rw [List.length_reverse]
  calc (l.reverse.dropWhile isWs).length
      ≤ l.reverse.length := (List.dropWhile_sublist isWs).length_le
    _ = l.length := List.length_reverse l

lemma trimL_cons_of_not_ws {c : Char} (h : isWs c = false) (t : Str) :
    trimL (c :: t) = c :: t := by
  unfold trimL
  simp [List.dropWhile_cons, h]

lemma length_dropWhile_cons_eq_iff (p : Char → Bool) (c : Char) (t : Str) :
    (((c :: t).dropWhile p).length = (c :: t).length) ↔ p c = false := by
  rw [List.dropWhile_cons]
  by_cases h : p c = true
  · rw [if_pos h, h]
    have hle : (t.dropWhile p).length ≤ t.length :=
      (List.dropWhile_sublist p).length_le
    simp only [List.length_cons]
    exact iff_of_false (by omega) (by simp)
  · have hf : p c = false := Bool.eq_false_iff.mpr h
    rw [if_neg h, hf]
    simp

/-- Counterexample for C4: with the line text `\a ` (trailing space) before
a cursor at column 3, the locator returns a non-absent match whose span ends
at column 2, not at the cursor column 3. -/
theorem locate_end_counterexample :
    evalPosition ['\\', 'a', ' '] 3 = some ((0, 2), ['\\', 'a']) ∧
    (2 : Int) ≠ ((3 : Nat) : Int) := by decide

/-- C4 amended: for every non-absent result of the Token Locator (with the
cursor column the length of the line text before the cursor), the span
starts at the position of the last backslash and ends at that start plus
the length of the trimmed word, which is at most the cursor column; the span
ends exactly at the cursor column iff the character immediately before
the cursor is not whitespace. -/
theorem locate_span (line : Str) (col : Nat) (s e : Int) (w : Str)
    (hcol : col = line.length)
    (hw : evalPosition line col = some ((s, e), w)) :
    s = lastIndexOf line '\\' ∧ e = s + w.length ∧ e ≤ (col : Int) ∧
      (e = (col : Int) ↔ ∃ c, line.getLast? = some c ∧ isWs c = false) := by
  obtain ⟨hc0, hwdef, hs, he, hne, hpre⟩ := evalPosition_some hw
  have hmem : '\\' ∈ line := by
    by_contra hnot
    rw [evalPosition_no_slash hnot col] at hw
    cases hw
  obtain ⟨n, hn, hnlt, hhead⟩ := lastIndexOf_mem_spec hmem
  obtain ⟨x, hxdef⟩ : ∃ x, line.drop n = x := ⟨_, rfl⟩
  rw [hxdef] at hhead
  have hslice : jsSliceFrom line (lastIndexOf line '\\') = x := by
    rw [hn]
    unfold jsSliceFrom
    rw [if_neg (by omega), Int.toNat_natCast]
    exact hxdef
  obtain ⟨t, hxt⟩ : ∃ t, x = '\\' :: t := by
    cases x with
    | nil => exact absurd hhead (by simp)
    | cons a t =>
      have ha : a = '\\' := by simpa using hhead
      exact ⟨t, by rw [ha]⟩
  have hwtrim : w = trimR x := by
    rw [hwdef, hslice, hxt]
    unfold trim
    rw [trimL_cons_of_not_ws (by decide) t]
  have hxlen : x.length = line.length - n := by
    rw [← hxdef]
    exact List.length_drop n line
  have hwle : w.length ≤ x.length := by
    rw [hwtrim]
    exact length_trimR_le x
  have hse : s = (n : Int) := hs.trans hn
  refine ⟨hs, he, ?_, ?_⟩
  · rw [he, hse, hcol]
    omega
  · have hxne : x ≠ [] := by rw [hxt]; simp
    obtain ⟨cl, rt, hrev⟩ : ∃ cl rt, x.reverse = cl :: rt := by
      cases hr : x.reverse with
      | nil => exact absurd (by simpa using hr) hxne
      | cons a t2 => exact ⟨a, t2, rfl⟩
    have hlastx : x.getLast? = some cl := by
      rw [← List.head?_reverse, hrev]
      rfl
    have hlastline : line.getLast? = some cl := by
      have hdropne : line.drop n ≠ [] := by
        rw [hxdef]
        exact hxne
      have h1 : (line.take n ++ line.drop n).getLast? = (line.drop n).getLast? :=
        List.getLast?_append_of_ne_nil _ hdropne
      rw [List.take_append_drop] at h1
      rw [h1, hxdef]
      exact hlastx
    have hwR : w.length = (x.reverse.dropWhile isWs).length := by
      rw [hwtrim]
      unfold trimR
      rw [List.length_reverse]
    constructor
    · intro hecol
      have hsum : (n : Int) + w.length = line.length := by
        rw [← hse, ← he, hecol, hcol]
      have hlw : w.length = x.length := by omega
      have hfull : ((cl :: rt).dropWhile isWs).length = (cl :: rt).length := by
        rw [← hrev, ← hwR, hlw, ← List.length_reverse x, hrev]
      exact ⟨cl, hlastline, (length_dropWhile_cons_eq_iff isWs cl rt).mp hfull⟩
    · rintro ⟨c, hcl2, hcws⟩
      have hceq : c = cl := by
        rw [hlastline] at hcl2
        exact (Option.some.inj hcl2).symm
      have hfull : ((cl :: rt).dropWhile isWs).length = (cl :: rt).length :=
        (length_dropWhile_cons_eq_iff isWs cl rt).mpr (hceq ▸ hcws)
      have hlw : w.length = x.length := by
        rw [hwR, hrev, hfull, ← hrev, List.length_reverse]
      rw [he, hse, hcol]
      omega

/-- Witness for the amended C4 at the line `\a` with the cursor at
column 2: the span is (0, 2), ending exactly at the cursor. -/
theorem locate_span_witness :
    (0 : Int) = lastIndexOf ['\\', 'a'] '\\' ∧
    (2 : Int) = (0 : Int) + ((['\\', 'a'] : Str).length : Int) ∧
    (2 : Int) ≤ ((2 : Nat) : Int) ∧
    ((2 : Int) = ((2 : Nat) : Int) ↔
      ∃ c, (['\\', 'a'] : Str).getLast? = some c ∧ isWs c = false) :=
  locate_span ['\\', 'a'] 2 0 2 ['\\', 'a'] (by decide) (by decide)


end UnicodeMaths
